import Mathlib

/-!
Shallow embedding of the brainfuck interpreter (machine.rs, source_file.rs,
utility.rs) for checking the natural-language specification.

Conventions of the embedding:
- A source file is modelled at the token level as a `List Tok`; a token is one
  grapheme cluster, and only the eleven cases the code distinguishes matter
  (the six instruction symbols, the two brackets, newline, everything else).
  The Unicode-level lexer is modelled separately (`lex_pieces`) over the
  sequence of grapheme-cluster byte strings produced by grapheme segmentation.
- Rust `usize` arithmetic is `Nat` modulo `2 ^ 64` (`USIZE`); `u8` cell
  arithmetic is `Nat` modulo `256`.
- A panic (a failed `unwrap` or out-of-bounds slice index) is modelled as the
  `crash` outcome; a blocking read on an exhausted input stream is `blocked`.
- The IO port is modelled as an input stream (list of character codes) plus an
  output buffer inside the machine state; `flush_all` clears the output buffer
  (as the test IO adapter of the repository does).
- The two `HashMap<usize, usize>` loop tables are modelled as association
  lists queried with `List.lookup`; the code only builds each key once, so the
  representation is faithful.
- Loops of the interpreter are modelled with an explicit fuel parameter so
  that every function is executable by kernel reduction.
-/

namespace BF

/-- Token kinds distinguished by the interpreter and the compiler: the six
non-jump instruction symbols, the two brackets, newline (both "\n" and the
single grapheme "\r\n"), and any other grapheme (comment content). -/
inductive Tok where
  | plus | minus | gt | lt | dot | comma | lbrack | rbrack | newline | other
deriving DecidableEq

/-- ByteCodeKind from byte_code.rs / source_file.rs. -/
inductive ByteCodeKind where
  | incPtr | decPtr | incData | decData | read | write | loopStart | loopEnd
deriving DecidableEq

/-- ByteCode: kind plus operand (`arg`). The source-range field of the Rust
struct is diagnostic metadata only (never used by execution) and is omitted. -/
structure ByteCode where
  kind : ByteCodeKind
  arg : Nat
deriving DecidableEq

def isStartTok : Tok → Bool
  | .lbrack => true
  | _ => false

def isEndTok : Tok → Bool
  | .rbrack => true
  | _ => false

def isStartCode (c : ByteCode) : Bool :=
  c.kind = ByteCodeKind.loopStart

def isEndCode (c : ByteCode) : Bool :=
  c.kind = ByteCodeKind.loopEnd

/-- Worker of populate_byte_codes_loop_boundaries (source_file.rs lines
103-132): stack-based matching; popping an empty stack is a panic (`none`);
start indices left on the stack at the end are silently ignored. -/
def popBoundsGo (isS isE : α → Bool) :
    List α → Nat → List Nat → List (Nat × Nat) → List (Nat × Nat) →
    Option (List (Nat × Nat) × List (Nat × Nat))
  | [], _, _, s2e, e2s => some (s2e, e2s)
  | c :: cs, idx, stack, s2e, e2s =>
    if isS c then
      popBoundsGo isS isE cs (idx + 1) (idx :: stack) s2e e2s
    else if isE c then
      match stack with
      | [] => none
      | s :: stack2 =>
        popBoundsGo isS isE cs (idx + 1) stack2 ((s, idx) :: s2e) ((idx, s) :: e2s)
    else
      popBoundsGo isS isE cs (idx + 1) stack s2e e2s

/-- populate_byte_codes_loop_boundaries (source_file.rs): returns the
start-to-end and end-to-start tables, or `none` when the Rust code panics on
an unmatched end bracket. Unmatched start brackets are NOT detected here. -/
def populate_byte_codes_loop_boundaries (isS isE : α → Bool) (codes : List α) :
    Option (List (Nat × Nat) × List (Nat × Nat)) :=
  popBoundsGo isS isE codes 0 [] [] []

/-- ExtraParen from utility.rs: which side is unmatched, and its index. -/
inductive ExtraParen where
  | left (i : Nat)
  | right (i : Nat)
deriving DecidableEq

/-- Worker of populate_loop_boundaries (utility.rs lines 59-91): on an end
item with an empty stack fail immediately with `right idx`; after the scan, a
non-empty stack fails with `left` of the top (most recently pushed) index. -/
def plbGo (isS isE : α → Bool) :
    List α → Nat → List Nat → List (Nat × Nat) → List (Nat × Nat) →
    Except ExtraParen (List (Nat × Nat) × List (Nat × Nat))
  | [], _, stack, s2e, e2s =>
    match stack with
    | [] => .ok (s2e, e2s)
    | j :: _ => .error (.left j)
  | c :: cs, idx, stack, s2e, e2s =>
    if isS c then
      plbGo isS isE cs (idx + 1) (idx :: stack) s2e e2s
    else if isE c then
      match stack with
      | [] => .error (.right idx)
      | s :: stack2 =>
        plbGo isS isE cs (idx + 1) stack2 ((s, idx) :: s2e) ((idx, s) :: e2s)
    else
      plbGo isS isE cs (idx + 1) stack s2e e2s

/-- populate_loop_boundaries (utility.rs): the Result-returning loop matcher. -/
def populate_loop_boundaries (isS isE : α → Bool) (codes : List α) :
    Except ExtraParen (List (Nat × Nat) × List (Nat × Nat)) :=
  plbGo isS isE codes 0 [] [] []

/-- Reference scan keeping only the stack of pending start indices (ends on an
empty stack are ignored); used to state properties of the matchers. -/
def scanStackGo (isS isE : α → Bool) : List α → Nat → List Nat → List Nat
  | [], _, stack => stack
  | c :: cs, idx, stack =>
    if isS c then
      scanStackGo isS isE cs (idx + 1) (idx :: stack)
    else if isE c then
      scanStackGo isS isE cs (idx + 1) stack.tail
    else
      scanStackGo isS isE cs (idx + 1) stack

def scanStack (isS isE : α → Bool) (codes : List α) : List Nat :=
  scanStackGo isS isE codes 0 []

/-- Reference scan for the first unmatched end item: walk left to right with a
depth counter; an end item at depth zero is the first unmatched end. -/
def firstExtraEndGo (isS isE : α → Bool) : List α → Nat → Nat → Option Nat
  | [], _, _ => none
  | c :: cs, idx, d =>
    if isS c then
      firstExtraEndGo isS isE cs (idx + 1) (d + 1)
    else if isE c then
      match d with
      | 0 => some idx
      | d' + 1 => firstExtraEndGo isS isE cs (idx + 1) d'
    else
      firstExtraEndGo isS isE cs (idx + 1) d

def firstExtraEnd (isS isE : α → Bool) (codes : List α) : Option Nat :=
  firstExtraEndGo isS isE codes 0 0

/-- Reference single-counter balance check: true iff every prefix has at least
as many start items as end items and the totals agree (fully paired brackets). -/
def dyckOkGo (isS isE : α → Bool) : List α → Nat → Bool
  | [], d => d = 0
  | c :: cs, d =>
    if isS c then
      dyckOkGo isS isE cs (d + 1)
    else if isE c then
      match d with
      | 0 => false
      | d' + 1 => dyckOkGo isS isE cs d'
    else
      dyckOkGo isS isE cs d

def dyckOk (isS isE : α → Bool) (codes : List α) : Bool :=
  dyckOkGo isS isE codes 0

/-- Bracket projection: the subsequence of start/end items as booleans
(true = start). Scan outcomes depend only on this projection. -/
def brkts (isS isE : α → Bool) (l : List α) : List Bool :=
  l.filterMap fun c => if isS c then some true else if isE c then some false else none

/-! ### Lexer (source_file.rs lex / get_token)

The Rust lexer maps grapheme_indices of the raw text to UnicodeChar records
(byte offset, byte length). Grapheme segmentation itself lives in the external
unicode-segmentation crate; it is abstracted here as the list of byte strings
of the clusters, in order, whose concatenation is the raw text (the contract
of grapheme_indices). The byte offsets produced by grapheme_indices are then
exactly the cumulative byte lengths. -/

/-- UnicodeChar from source_file.rs: byte offset and byte length of one
grapheme cluster in the raw source. -/
structure UnicodeChar where
  idx_in_raw : Nat
  length : Nat
deriving DecidableEq

/-- Worker of lex: offsets are the cumulative byte lengths of the clusters. -/
def lexGo : Nat → List (List Nat) → List UnicodeChar
  | _, [] => []
  | ofs, p :: ps => ⟨ofs, p.length⟩ :: lexGo (ofs + p.length) ps

/-- lex (source_file.rs): one UnicodeChar per grapheme cluster, with its byte
offset in the raw content and its byte length. -/
def lex_pieces (pieces : List (List Nat)) : List UnicodeChar :=
  lexGo 0 pieces

/-- get_token (source_file.rs): the byte slice of the raw content at the
token's offset, of the token's length. -/
def get_token (raw : List Nat) (uc : UnicodeChar) : List Nat :=
  (raw.drop uc.idx_in_raw).take uc.length

/-- Tokens cover the input contiguously starting at a given offset: each
token starts where the previous one ended (no gaps, no overlaps). -/
def contiguousFrom : Nat → List UnicodeChar → Prop
  | _, [] => True
  | ofs, u :: us => u.idx_in_raw = ofs ∧ contiguousFrom (ofs + u.length) us

/-! ### Bytecode compiler (source_file.rs to_byte_codes) -/

/-- Iterator::position on a list: index of the first element satisfying the
predicate. -/
def position? (p : α → Bool) : List α → Option Nat
  | [] => none
  | x :: xs => if p x then some 0 else (position? p xs).map (· + 1)

/-- Kind table for the six non-jump symbols (the `symbols` HashMap). -/
def symKind : Tok → Option ByteCodeKind
  | .plus => some .incData
  | .minus => some .decData
  | .gt => some .incPtr
  | .lt => some .decPtr
  | .dot => some .write
  | .comma => some .read
  | _ => none

/-- Scan pass of to_byte_codes, with fuel for termination (one token is always
consumed per step, so fuel = length of the token list suffices). On a non-jump
symbol, the operand is the position of the first different token counted from
the current one — the run length — except that a run reaching the end of the
source falls back to operand 1 (`unwrap_or(1)` in the Rust code). Brackets are
emitted with a placeholder operand, newlines and comments emit nothing. -/
def tbcGo : Nat → List Tok → List ByteCode
  | 0, _ => []
  | _, [] => []
  | fuel + 1, t :: rest =>
    match symKind t with
    | some k =>
      let arg := (position? (fun e => decide ¬(e = t)) (t :: rest)).getD 1
      ⟨k, arg⟩ :: tbcGo fuel ((t :: rest).drop arg)
    | none =>
      match t with
      | .lbrack => ⟨.loopStart, 1⟩ :: tbcGo fuel rest
      | .rbrack => ⟨.loopEnd, 1⟩ :: tbcGo fuel rest
      | _ => tbcGo fuel rest

/-- The code emission scan of to_byte_codes (before jump patching). -/
def scanCodes (ts : List Tok) : List ByteCode :=
  tbcGo ts.length ts

/-- Patch pass of to_byte_codes: each loop-start operand becomes its matching
end index, each loop-end operand its matching start index; a missing table
entry is the Rust `unwrap` panic (`none`). -/
def patchGo (s2e e2s : List (Nat × Nat)) : Nat → List ByteCode → Option (List ByteCode)
  | _, [] => some []
  | i, c :: cs =>
    match c.kind with
    | .loopStart =>
      match s2e.lookup i with
      | none => none
      | some t => (patchGo s2e e2s (i + 1) cs).map (⟨c.kind, t⟩ :: ·)
    | .loopEnd =>
      match e2s.lookup i with
      | none => none
      | some t => (patchGo s2e e2s (i + 1) cs).map (⟨c.kind, t⟩ :: ·)
    | _ => (patchGo s2e e2s (i + 1) cs).map (c :: ·)

/-- to_byte_codes (source_file.rs): scan, match loop boundaries over the
emitted codes, patch jump operands. `none` models a panic (unmatched bracket
on either side). -/
def to_byte_codes (ts : List Tok) : Option (List ByteCode) :=
  let codes := scanCodes ts
  match populate_byte_codes_loop_boundaries isStartCode isEndCode codes with
  | none => none
  | some (s2e, e2s) => patchGo s2e e2s 0 codes

/-! ### Virtual machine (machine.rs) -/

/-- usize modulus: wrapping_add / wrapping_sub on the data pointer wrap at
2 ^ 64, NOT at the tape length. -/
def USIZE : Nat := 2 ^ 64

/-- Machine state: tape, data pointer, instruction pointer, plus the IO port
state (input stream of character codes, output buffer of emitted bytes). -/
structure Machine where
  cells : List Nat
  data_ptr : Nat
  instr_ptr : Nat
  inp : List Nat
  out : List Nat
deriving DecidableEq

/-- Outcome of one instruction: normal step, panic (failed unwrap /
out-of-bounds cell access), or blocking on exhausted input. -/
inductive StepOut where
  | ok (m : Machine)
  | crash (m : Machine)
  | blocked (m : Machine)
deriving DecidableEq

/-- Outcome of an evaluation loop. -/
inductive RunResult where
  | halt (m : Machine)
  | crash (m : Machine)
  | blocked (m : Machine)
  | fuel_out (m : Machine)
deriving DecidableEq

/-- Machine::with_io: zeroed tape of the given size, data pointer at the
midpoint, instruction pointer 0. The extra arguments are the IO port state. -/
def mkMachine (cell_size : Nat) (inp : List Nat) : Machine :=
  ⟨List.replicate cell_size 0, cell_size / 2, 0, inp, []⟩

/-- Machine::reset: all cells zeroed, data pointer to tape length / 2,
instruction pointer to 0, IO port flushed (output buffer cleared). -/
def reset (m : Machine) : Machine :=
  { m with
    cells := m.cells.map fun _ => 0
    data_ptr := m.cells.length / 2
    instr_ptr := 0
    out := [] }

/-- Machine::write: emit the current cell's value `arg` times; panics when the
data pointer is outside the tape. -/
def write (arg : Nat) (m : Machine) : StepOut :=
  match m.cells[m.data_ptr]? with
  | none => .crash m
  | some c => .ok { m with out := m.out ++ List.replicate arg c, instr_ptr := m.instr_ptr + 1 }

/-- Machine::read: consume ONE character from the IO port (the repeat count is
ignored), store its low byte in the current cell. The right-hand side of the
Rust assignment (the input read) is evaluated before the cell place, so an
exhausted input blocks even when the data pointer is out of range. -/
def read (_arg : Nat) (m : Machine) : StepOut :=
  match m.inp with
  | [] => .blocked m
  | c :: rest =>
    if m.data_ptr < m.cells.length then
      .ok { m with
        cells := m.cells.set m.data_ptr (c % 256)
        inp := rest
        instr_ptr := m.instr_ptr + 1 }
    else .crash { m with inp := rest }

/-- Machine::inc_ptr: data_ptr.wrapping_add(arg) — modulo 2 ^ 64. -/
def inc_ptr (arg : Nat) (m : Machine) : Machine :=
  { m with data_ptr := (m.data_ptr + arg) % USIZE, instr_ptr := m.instr_ptr + 1 }

/-- Machine::dec_ptr: data_ptr.wrapping_sub(arg) — modulo 2 ^ 64. -/
def dec_ptr (arg : Nat) (m : Machine) : Machine :=
  { m with
    data_ptr := (m.data_ptr + (USIZE - arg % USIZE)) % USIZE
    instr_ptr := m.instr_ptr + 1 }

/-- Machine::inc_data: current cell wrapping_add(arg as u8); panics when the
data pointer is outside the tape. -/
def inc_data (arg : Nat) (m : Machine) : StepOut :=
  match m.cells[m.data_ptr]? with
  | none => .crash m
  | some c =>
    .ok { m with
      cells := m.cells.set m.data_ptr ((c + arg % 256) % 256)
      instr_ptr := m.instr_ptr + 1 }

/-- Machine::dec_data: current cell wrapping_sub(arg as u8). -/
def dec_data (arg : Nat) (m : Machine) : StepOut :=
  match m.cells[m.data_ptr]? with
  | none => .crash m
  | some c =>
    .ok { m with
      cells := m.cells.set m.data_ptr ((c + (256 - arg % 256)) % 256)
      instr_ptr := m.instr_ptr + 1 }

/-- Machine::loop_start_jump_if_data_zero: if the current cell is zero, jump
to the position after the matching end; else advance by one. -/
def loop_start_jump_if_data_zero (end_ptr : Nat) (m : Machine) : StepOut :=
  match m.cells[m.data_ptr]? with
  | none => .crash m
  | some c =>
    .ok { m with instr_ptr := if c = 0 then end_ptr + 1 else m.instr_ptr + 1 }

/-- Machine::loop_end_jump_if_data_not_zero: if the current cell is nonzero,
jump back to the matching start; else advance by one. -/
def loop_end_jump_if_data_not_zero (start_ptr : Nat) (m : Machine) : StepOut :=
  match m.cells[m.data_ptr]? with
  | none => .crash m
  | some c =>
    .ok { m with instr_ptr := if c ≠ 0 then start_ptr else m.instr_ptr + 1 }

/-- One step of direct mode (the match arms of eval_source_file): every
operation has repeat count 1; jump targets come from the recomputed tables,
a missing entry being the Rust `unwrap` panic. -/
def src_step (s2e e2s : List (Nat × Nat)) (t : Tok) (m : Machine) : StepOut :=
  match t with
  | .dot => write 1 m
  | .comma => read 1 m
  | .gt => .ok (inc_ptr 1 m)
  | .lt => .ok (dec_ptr 1 m)
  | .plus => inc_data 1 m
  | .minus => dec_data 1 m
  | .lbrack =>
    match s2e.lookup m.instr_ptr with
    | none => .crash m
    | some e => loop_start_jump_if_data_zero e m
  | .rbrack =>
    match e2s.lookup m.instr_ptr with
    | none => .crash m
    | some s => loop_end_jump_if_data_not_zero s m
  | _ => .ok { m with instr_ptr := m.instr_ptr + 1 }

/-- The while loop of eval_source_file, with fuel. -/
def run_src (src : List Tok) (s2e e2s : List (Nat × Nat)) : Nat → Machine → RunResult
  | 0, m => .fuel_out m
  | fuel + 1, m =>
    match src[m.instr_ptr]? with
    | none => .halt m
    | some t =>
      match src_step s2e e2s t m with
      | .ok m2 => run_src src s2e e2s fuel m2
      | .crash m2 => .crash m2
      | .blocked m2 => .blocked m2

/-- Machine::eval_source_file: reset, recompute the loop tables from the raw
tokens with the panicking matcher, then reinterpret each token per step. -/
def eval_source_file (fuel : Nat) (src : List Tok) (m0 : Machine) : RunResult :=
  let m := reset m0
  match populate_byte_codes_loop_boundaries isStartTok isEndTok src with
  | none => .crash m
  | some (s2e, e2s) => run_src src s2e e2s fuel m

/-- One step of compiled mode (the match arms of eval_byte_codes): dispatch on
the kind, passing the operand. -/
def code_step (c : ByteCode) (m : Machine) : StepOut :=
  match c.kind with
  | .write => write c.arg m
  | .read => read c.arg m
  | .incPtr => .ok (inc_ptr c.arg m)
  | .decPtr => .ok (dec_ptr c.arg m)
  | .incData => inc_data c.arg m
  | .decData => dec_data c.arg m
  | .loopStart => loop_start_jump_if_data_zero c.arg m
  | .loopEnd => loop_end_jump_if_data_not_zero c.arg m

/-- The while loop of eval_byte_codes, with fuel. -/
def run_codes (codes : List ByteCode) : Nat → Machine → RunResult
  | 0, m => .fuel_out m
  | fuel + 1, m =>
    match codes[m.instr_ptr]? with
    | none => .halt m
    | some c =>
      match code_step c m with
      | .ok m2 => run_codes codes fuel m2
      | .crash m2 => .crash m2
      | .blocked m2 => .blocked m2

/-- Machine::eval_byte_codes: reset, then execute the pre-compiled codes. -/
def eval_byte_codes (fuel : Nat) (codes : List ByteCode) (m0 : Machine) : RunResult :=
  run_codes codes fuel (reset m0)

/-- Output buffer of the machine carried by a run outcome. -/
def res_out : RunResult → List Nat
  | .halt m => m.out
  | .crash m => m.out
  | .blocked m => m.out
  | .fuel_out m => m.out

/-- Whether a run outcome is a panic. -/
def is_crash : RunResult → Bool
  | .crash _ => true
  | _ => false

/-! ### Basic lemmas about the compiler scan -/

theorem position?_cons (p : α → Bool) (x : α) (xs : List α) :
    position? p (x :: xs) = if p x then some 0 else (position? p xs).map (· + 1) := rfl

theorem position?_take {p : α → Bool} :
    ∀ {l : List α} {n : Nat}, position? p l = some n → ∀ x ∈ l.take n, p x = false := by
  intro l
  induction l with
  | nil => intro n h x hx; simp [List.take] at hx
  | cons a as ih =>
    intro n h x hx
    rw [position?_cons] at h
    by_cases hpa : p a = true
    · simp [hpa] at h
      subst h
      simp at hx
    · simp [hpa] at h
      obtain ⟨n', hn', rfl⟩ := h
      rw [List.take_succ_cons] at hx
      rcases List.mem_cons.mp hx with rfl | hx'
      · simpa using hpa
      · exact ih hn' _ hx'

theorem position?_none {p : α → Bool} :
    ∀ {l : List α}, position? p l = none → ∀ x ∈ l, p x = false := by
  intro l
  induction l with
  | nil => intro _ x hx; simp at hx
  | cons a as ih =>
    intro h x hx
    rw [position?_cons] at h
    by_cases hpa : p a = true
    · simp [hpa] at h
    · simp [hpa] at h
      rcases List.mem_cons.mp hx with rfl | hx'
      · simpa using hpa
      · exact ih h _ hx'

theorem position?_getD_pos {p : α → Bool} {x : α} (xs : List α) (hx : p x = false) :
    1 ≤ (position? p (x :: xs)).getD 1 := by
  rw [position?_cons, hx]
  simp only [Bool.false_eq_true, if_false]
  cases position? p xs <;> simp

/-- The operand computed for a run is at least 1. -/
theorem run_arg_pos (t : Tok) (rest : List Tok) :
    1 ≤ (position? (fun e => decide ¬(e = t)) (t :: rest)).getD 1 :=
  position?_getD_pos rest (by simp)

/-- Every token consumed by one run step equals the run's symbol. -/
theorem run_arg_take (t : Tok) (rest : List Tok) :
    ∀ x ∈ (t :: rest).take ((position? (fun e => decide ¬(e = t)) (t :: rest)).getD 1),
      x = t := by
  intro x hx
  cases hpos : position? (fun e => decide ¬(e = t)) (t :: rest) with
  | none =>
    rw [hpos] at hx
    have := position?_none hpos x (List.mem_of_mem_take hx)
    simpa using this
  | some n =>
    rw [hpos] at hx
    have := position?_take hpos x hx
    simpa using this

/-- Fuel irrelevance: any fuel at least the token count gives the same scan. -/
theorem tbcGo_fuel : ∀ (fuel : Nat) (ts : List Tok), ts.length ≤ fuel →
    tbcGo fuel ts = tbcGo ts.length ts := by
  intro fuel
  induction fuel using Nat.strong_induction_on with
  | _ fuel ih =>
    intro ts hlen
    match fuel, ts with
    | f, [] => cases f <;> rfl
    | 0, t :: rest => simp at hlen
    | f + 1, t :: rest =>
      have harg := run_arg_pos t rest
      simp only [tbcGo]
      have hlen2 : rest.length + 1 ≤ f + 1 := by simpa using hlen
      cases hk : symKind t with
      | some k =>
        set arg := (position? (fun e => decide ¬(e = t)) (t :: rest)).getD 1 with harg_def
        have hdrop : ((t :: rest).drop arg).length ≤ rest.length := by
          simp only [List.length_drop]
          simp only [List.length_cons]
          omega
        have h1 : tbcGo f ((t :: rest).drop arg) =
            tbcGo ((t :: rest).drop arg).length ((t :: rest).drop arg) :=
          ih f (by omega) _ (by omega)
        have h2 : tbcGo rest.length ((t :: rest).drop arg) =
            tbcGo ((t :: rest).drop arg).length ((t :: rest).drop arg) :=
          ih rest.length (by omega) _ hdrop
        rw [h1, h2]
      | none =>
        have h1 : tbcGo f rest = tbcGo rest.length rest := ih f (by omega) _ (by omega)
        have h2 : tbcGo rest.length rest = tbcGo rest.length rest := rfl
        cases t <;> simp_all [tbcGo]

theorem position?_replicate_append [DecidableEq α] {s t : α} (hts : t ≠ s) (rest : List α) :
    ∀ k, position? (fun e => decide ¬(e = s)) (List.replicate k s ++ t :: rest) = some k := by
  intro k
  induction k with
  | zero =>
    simp only [List.replicate, List.nil_append, position?_cons]
    simp [hts]
  | succ k ih =>
    rw [List.replicate_succ, List.cons_append, position?_cons]
    simp only [decide_not] at ih ⊢
    simp [ih]

theorem position?_replicate [DecidableEq α] (s : α) :
    ∀ k, position? (fun e => decide ¬(e = s)) (List.replicate k s) = none := by
  intro k
  induction k with
  | zero => rfl
  | succ k ih =>
    rw [List.replicate_succ, position?_cons]
    simp only [decide_not] at ih ⊢
    simp [ih]

theorem drop_replicate_append (n : Nat) (s : α) (l2 : List α) :
    List.drop n (List.replicate n s ++ l2) = l2 := by
  have h := List.drop_left (List.replicate n s) l2
  rwa [List.length_replicate] at h

/-- Coalescing of an interior maximal run: when the compiler's scan reaches a
run of k identical non-jump symbols followed by a different token, it emits
exactly one instruction of the corresponding kind with operand k and continues
after the run. -/
theorem scanCodes_run {s : Tok} {k : ByteCodeKind} (hk : symKind s = some k)
    {t : Tok} (hts : t ≠ s) (rest : List Tok) :
    ∀ n, 1 ≤ n →
      scanCodes (List.replicate n s ++ t :: rest) =
        ⟨k, n⟩ :: scanCodes (t :: rest) := by
  intro n hn
  obtain ⟨n', rfl⟩ : ∃ n', n = n' + 1 := ⟨n - 1, by omega⟩
  have hshape : List.replicate (n' + 1) s ++ t :: rest =
      s :: (List.replicate n' s ++ t :: rest) := by
    rw [List.replicate_succ, List.cons_append]
  have hpos : position? (fun e => decide ¬(e = s)) (s :: (List.replicate n' s ++ t :: rest)) =
      some (n' + 1) := by
    have h := position?_replicate_append hts rest (n' + 1)
    rwa [hshape] at h
  have hdrop : (s :: (List.replicate n' s ++ t :: rest)).drop (n' + 1) = t :: rest := by
    rw [List.drop_succ_cons]
    exact drop_replicate_append n' s (t :: rest)
  have hlen : (s :: (List.replicate n' s ++ t :: rest)).length =
      (n' + 1 + rest.length) + 1 := by
    simp [List.length_append, List.length_replicate]
    omega
  have key : scanCodes (s :: (List.replicate n' s ++ t :: rest)) =
      ⟨k, n' + 1⟩ :: tbcGo (n' + 1 + rest.length) (t :: rest) := by
    unfold scanCodes
    rw [hlen]
    simp only [tbcGo, hk]
    rw [hpos]
    simp only [Option.getD_some]
    rw [hdrop]
  rw [hshape, key]
  have hfu : tbcGo (n' + 1 + rest.length) (t :: rest) = tbcGo (t :: rest).length (t :: rest) := by
    apply tbcGo_fuel
    simp only [List.length_cons]
    omega
  rw [hfu]
  rfl

/-- A run of n identical non-jump symbols closing the source is emitted as n
separate instructions with operand 1 (the unwrap_or(1) fallback). -/
theorem scanCodes_run_at_end {s : Tok} {k : ByteCodeKind} (hk : symKind s = some k) :
    ∀ n, scanCodes (List.replicate n s) = List.replicate n ⟨k, 1⟩ := by
  intro n
  induction n with
  | zero => rfl
  | succ n ih =>
    unfold scanCodes
    rw [List.length_replicate, List.replicate_succ]
    simp only [tbcGo, hk]
    have hpos : position? (fun e => decide ¬(e = s)) (s :: List.replicate n s) = none := by
      have := position?_replicate s (n + 1)
      rwa [List.replicate_succ] at this
    rw [hpos]
    simp only [Option.getD_none]
    have hdrop : (s :: List.replicate n s).drop 1 = List.replicate n s := by simp
    rw [hdrop]
    rw [List.replicate_succ]
    have hfu : tbcGo n (List.replicate n s) = List.replicate n (⟨k, 1⟩ : ByteCode) := by
      have := ih
      unfold scanCodes at this
      rwa [List.length_replicate] at this
    rw [hfu]

/-! ### Generic lemmas about the bracket scans -/

/-- Start predicate on the boolean bracket projection. -/
def bS (b : Bool) : Bool := b

/-- End predicate on the boolean bracket projection. -/
def bE (b : Bool) : Bool := !b

/-- Presence of a first unmatched end item depends only on the bracket
projection (and not on the index offset). -/
theorem firstExtraEndGo_brkts (isS isE : α → Bool) :
    ∀ (l : List α) (idx idx2 d : Nat),
      (firstExtraEndGo isS isE l idx d).isNone =
        (firstExtraEndGo bS bE (brkts isS isE l) idx2 d).isNone := by
  intro l
  induction l with
  | nil => intro idx idx2 d; rfl
  | cons c cs ih =>
    intro idx idx2 d
    by_cases hS : isS c = true
    · simp only [firstExtraEndGo, brkts, List.filterMap_cons, hS, if_true, bS]
      exact ih (idx + 1) (idx2 + 1) (d + 1)
    · by_cases hE : isE c = true
      · simp only [firstExtraEndGo, brkts, List.filterMap_cons, hS, hE, if_true,
          Bool.false_eq_true, if_false, bS, bE, Bool.not_false]
        cases d with
        | zero => rfl
        | succ d' => exact ih (idx + 1) (idx2 + 1) d'
      · simp only [firstExtraEndGo, brkts, List.filterMap_cons, hS, hE,
          Bool.false_eq_true, if_false]
        exact ih (idx + 1) idx2 d

/-- Full balance depends only on the bracket projection. -/
theorem dyckOkGo_brkts (isS isE : α → Bool) :
    ∀ (l : List α) (d : Nat),
      dyckOkGo isS isE l d = dyckOkGo bS bE (brkts isS isE l) d := by
  intro l
  induction l with
  | nil => intro d; rfl
  | cons c cs ih =>
    intro d
    by_cases hS : isS c = true
    · simp only [dyckOkGo, brkts, List.filterMap_cons, hS, if_true, bS]
      exact ih (d + 1)
    · by_cases hE : isE c = true
      · simp only [dyckOkGo, brkts, List.filterMap_cons, hS, hE, if_true,
          Bool.false_eq_true, if_false, bS, bE, Bool.not_false]
        cases d with
        | zero => rfl
        | succ d' => exact ih d'
      · simp only [dyckOkGo, brkts, List.filterMap_cons, hS, hE,
          Bool.false_eq_true, if_false]
        exact ih d

/-- The single-counter balance check agrees with: no unmatched end exists and
the stack of pending starts is empty after the scan. -/
theorem dyckOkGo_iff (isS isE : α → Bool) :
    ∀ (l : List α) (idx : Nat) (stack : List Nat),
      dyckOkGo isS isE l stack.length = true ↔
        (firstExtraEndGo isS isE l idx stack.length = none ∧
          scanStackGo isS isE l idx stack = []) := by
  intro l
  induction l with
  | nil =>
    intro idx stack
    simp only [dyckOkGo, firstExtraEndGo, scanStackGo, decide_eq_true_eq,
      List.length_eq_zero, true_and]
  | cons c cs ih =>
    intro idx stack
    by_cases hS : isS c = true
    · simp only [dyckOkGo, firstExtraEndGo, scanStackGo, hS, if_true]
      exact ih (idx + 1) (idx :: stack)
    · by_cases hE : isE c = true
      · simp only [dyckOkGo, firstExtraEndGo, scanStackGo, hS, hE, if_true,
          Bool.false_eq_true, if_false]
        cases stack with
        | nil => simp
        | cons s t =>
          simp only [List.length_cons, List.tail_cons]
          exact ih (idx + 1) t
      · simp only [dyckOkGo, firstExtraEndGo, scanStackGo, hS, hE,
          Bool.false_eq_true, if_false]
        exact ih (idx + 1) stack

/-- The panicking matcher fails if and only if an unmatched end item exists. -/
theorem popBoundsGo_none_iff (isS isE : α → Bool) :
    ∀ (l : List α) (idx : Nat) (stack : List Nat) (s2e e2s : List (Nat × Nat)),
      popBoundsGo isS isE l idx stack s2e e2s = none ↔
        (firstExtraEndGo isS isE l idx stack.length).isSome = true := by
  intro l
  induction l with
  | nil => intro idx stack s2e e2s; simp [popBoundsGo, firstExtraEndGo]
  | cons c cs ih =>
    intro idx stack s2e e2s
    by_cases hS : isS c = true
    · simp only [popBoundsGo, firstExtraEndGo, hS, if_true]
      exact ih (idx + 1) (idx :: stack) s2e e2s
    · by_cases hE : isE c = true
      · simp only [popBoundsGo, firstExtraEndGo, hS, hE, if_true,
          Bool.false_eq_true, if_false]
        cases stack with
        | nil => simp
        | cons s t =>
          simp only [List.length_cons]
          exact ih (idx + 1) t _ _
      · simp only [popBoundsGo, firstExtraEndGo, hS, hE,
          Bool.false_eq_true, if_false]
        exact ih (idx + 1) stack s2e e2s

theorem lookup_eq_none_of_ne {k : Nat} :
    ∀ {ps : List (Nat × Nat)}, (∀ p ∈ ps, p.1 ≠ k) → List.lookup k ps = none := by
  intro ps
  induction ps with
  | nil => intro _; rfl
  | cons a ps ih =>
    intro h
    have hne : k ≠ a.1 := fun he => h a (List.mem_cons_self a ps) he.symm
    have : (k == a.1) = false := beq_eq_false_iff_ne.mpr hne
    simp only [List.lookup, this]
    exact ih fun p hp => h p (List.mem_cons_of_mem a hp)

/-- Start indices still pending when the panicking matcher finishes were never
inserted into the start-to-end table. -/
theorem popBounds_leftover_lookup (isS isE : α → Bool) :
    ∀ (l : List α) (idx : Nat) (stack : List Nat) (s2e e2s S E : List (Nat × Nat)),
      popBoundsGo isS isE l idx stack s2e e2s = some (S, E) →
      stack.Pairwise (· > ·) →
      (∀ x ∈ stack, x < idx) →
      (∀ x ∈ stack, List.lookup x s2e = none) →
      (∀ p ∈ s2e, p.1 < idx) →
      ∀ j ∈ scanStackGo isS isE l idx stack, List.lookup j S = none := by
  intro l
  induction l with
  | nil =>
    intro idx stack s2e e2s S E hrun _ _ hlook _ j hj
    simp only [popBoundsGo, Option.some.injEq, Prod.mk.injEq] at hrun
    obtain ⟨rfl, _⟩ := hrun
    simp only [scanStackGo] at hj
    exact hlook j hj
  | cons c cs ih =>
    intro idx stack s2e e2s S E hrun hpw hbnd hlook hkeys j hj
    by_cases hS : isS c = true
    · simp only [popBoundsGo, hS, if_true] at hrun
      simp only [scanStackGo, hS, if_true] at hj
      refine ih (idx + 1) (idx :: stack) s2e e2s S E hrun ?_ ?_ ?_ ?_ j hj
      · exact List.pairwise_cons.mpr ⟨fun x hx => hbnd x hx, hpw⟩
      · intro x hx
        rcases List.mem_cons.mp hx with rfl | hx'
        · omega
        · have := hbnd x hx'; omega
      · intro x hx
        rcases List.mem_cons.mp hx with rfl | hx'
        · exact lookup_eq_none_of_ne fun p hp => by have := hkeys p hp; omega
        · exact hlook x hx'
      · intro p hp
        have := hkeys p hp; omega
    · by_cases hE : isE c = true
      · simp only [popBoundsGo, hS, hE, if_true, Bool.false_eq_true, if_false] at hrun
        simp only [scanStackGo, hS, hE, if_true, Bool.false_eq_true, if_false] at hj
        cases stack with
        | nil => exact absurd hrun (by simp)
        | cons s t =>
          simp only [List.tail_cons] at hj
          have hst := List.pairwise_cons.mp hpw
          refine ih (idx + 1) t ((s, idx) :: s2e) _ S E hrun hst.2 ?_ ?_ ?_ j hj
          · intro x hx
            have := hbnd x (List.mem_cons_of_mem s hx); omega
          · intro x hx
            have hne : (x == s) = false := beq_eq_false_iff_ne.mpr (by
              have := hst.1 x hx; omega)
            simp only [List.lookup, hne]
            exact hlook x (List.mem_cons_of_mem s hx)
          · intro p hp
            rcases List.mem_cons.mp hp with rfl | hp'
            · have := hbnd s (List.mem_cons_self s t)
              simp only []
              omega
            · have := hkeys p hp'; omega
      · simp only [popBoundsGo, hS, hE, Bool.false_eq_true, if_false] at hrun
        simp only [scanStackGo, hS, hE, Bool.false_eq_true, if_false] at hj
        refine ih (idx + 1) stack s2e e2s S E hrun hpw ?_ hlook ?_ j hj
        · intro x hx; have := hbnd x hx; omega
        · intro p hp; have := hkeys p hp; omega

/-- Every index on the final pending-start stack is either inherited from the
initial stack or the position of a start item. -/
theorem scanStack_mem (isS isE : α → Bool) :
    ∀ (l : List α) (idx : Nat) (stack : List Nat) (j : Nat),
      j ∈ scanStackGo isS isE l idx stack →
      j ∈ stack ∨ ∃ k, ∃ h : k < l.length, isS (l.get ⟨k, h⟩) = true ∧ j = idx + k := by
  intro l
  induction l with
  | nil => intro idx stack j hj; exact Or.inl hj
  | cons c cs ih =>
    intro idx stack j hj
    by_cases hS : isS c = true
    · simp only [scanStackGo, hS, if_true] at hj
      rcases ih (idx + 1) (idx :: stack) j hj with hmem | ⟨k, hk, hks, rfl⟩
      · rcases List.mem_cons.mp hmem with rfl | hmem'
        · exact Or.inr ⟨0, by simp, by simpa using hS, by omega⟩
        · exact Or.inl hmem'
      · exact Or.inr ⟨k + 1, by simpa using hk, by simpa using hks, by omega⟩
    · by_cases hE : isE c = true
      · simp only [scanStackGo, hS, hE, if_true, Bool.false_eq_true, if_false] at hj
        rcases ih (idx + 1) stack.tail j hj with hmem | ⟨k, hk, hks, rfl⟩
        · exact Or.inl (List.mem_of_mem_tail hmem)
        · exact Or.inr ⟨k + 1, by simpa using hk, by simpa using hks, by omega⟩
      · simp only [scanStackGo, hS, hE, Bool.false_eq_true, if_false] at hj
        rcases ih (idx + 1) stack j hj with hmem | ⟨k, hk, hks, rfl⟩
        · exact Or.inl hmem
        · exact Or.inr ⟨k + 1, by simpa using hk, by simpa using hks, by omega⟩

/-- The patch pass panics when some loop-start index is missing from the
start-to-end table. -/
theorem patchGo_none (s2e e2s : List (Nat × Nat)) :
    ∀ (cs : List ByteCode) (i k : Nat) (h : k < cs.length),
      (cs.get ⟨k, h⟩).kind = ByteCodeKind.loopStart →
      List.lookup (i + k) s2e = none →
      patchGo s2e e2s i cs = none := by
  intro cs
  induction cs with
  | nil => intro i k h; simp at h
  | cons c cs ih =>
    intro i k h hkind hlook
    cases k with
    | zero =>
      simp only [List.get] at hkind
      simp only [Nat.add_zero] at hlook
      simp only [patchGo, hkind, hlook]
    | succ k' =>
      have hrec : patchGo s2e e2s (i + 1) cs = none := by
        refine ih (i + 1) k' (by simpa using h) ?_ ?_
        · simpa using hkind
        · have : i + 1 + k' = i + (k' + 1) := by omega
          rwa [this]
      cases hck : c.kind <;>
        simp only [patchGo, hck, hrec, Option.map_none'] <;>
        cases hlk : List.lookup i s2e <;>
        cases hlk2 : List.lookup i e2s <;>
        simp [hrec]

/-! ### Bracket projection of the compiler's emission -/

theorem symKind_no_jump {t : Tok} {k : ByteCodeKind} (hk : symKind t = some k) (a : Nat) :
    isStartCode ⟨k, a⟩ = false ∧ isEndCode ⟨k, a⟩ = false := by
  cases t <;> simp only [symKind, Option.some.injEq, reduceCtorEq] at hk <;>
    subst hk <;> simp [isStartCode, isEndCode]

theorem symKind_not_bracket {t : Tok} {k : ByteCodeKind} (hk : symKind t = some k) :
    isStartTok t = false ∧ isEndTok t = false := by
  cases t <;> simp only [symKind, reduceCtorEq] at hk <;> simp [isStartTok, isEndTok]

theorem brkts_cons_skip {isS isE : α → Bool} {c : α} (hS : isS c = false)
    (hE : isE c = false) (cs : List α) :
    brkts isS isE (c :: cs) = brkts isS isE cs := by
  simp [brkts, List.filterMap_cons, hS, hE]

theorem brkts_nil_of_skip {isS isE : α → Bool} {l : List α}
    (h : ∀ x ∈ l, isS x = false ∧ isE x = false) :
    brkts isS isE l = [] := by
  refine List.filterMap_eq_nil_iff.mpr fun a ha => ?_
  have := h a ha
  simp [this.1, this.2]

/-- The sequence of brackets emitted by the compiler scan equals the sequence
of brackets of the token list: coalescing and comment skipping touch only
non-bracket items, and each bracket becomes exactly one jump code in order. -/
theorem brkts_tbcGo : ∀ (fuel : Nat) (ts : List Tok), ts.length ≤ fuel →
    brkts isStartCode isEndCode (tbcGo fuel ts) = brkts isStartTok isEndTok ts := by
  intro fuel
  induction fuel using Nat.strong_induction_on with
  | _ fuel ih =>
    intro ts hlen
    match fuel, ts with
    | f, [] => cases f <;> rfl
    | 0, t :: rest => simp at hlen
    | f + 1, t :: rest =>
      have hlen2 : rest.length + 1 ≤ f + 1 := by simpa using hlen
      cases hk : symKind t with
      | some k =>
        simp only [tbcGo, hk]
        set arg := (position? (fun e => decide ¬(e = t)) (t :: rest)).getD 1 with harg_def
        have harg : 1 ≤ arg := run_arg_pos t rest
        have hjump := symKind_no_jump hk arg
        rw [brkts_cons_skip hjump.1 hjump.2]
        have hdroplen : ((t :: rest).drop arg).length ≤ rest.length := by
          simp only [List.length_drop, List.length_cons]
          omega
        rw [ih f (by omega) _ (by omega)]
        have hsplit : brkts isStartTok isEndTok (t :: rest) =
            brkts isStartTok isEndTok ((t :: rest).take arg) ++
              brkts isStartTok isEndTok ((t :: rest).drop arg) := by
          conv_lhs => rw [← List.take_append_drop arg (t :: rest)]
          exact List.filterMap_append _ _ _
        have htake : brkts isStartTok isEndTok ((t :: rest).take arg) = [] := by
          refine brkts_nil_of_skip fun x hx => ?_
          have hxt : x = t := run_arg_take t rest x hx
          subst hxt
          exact symKind_not_bracket hk
        rw [hsplit, htake, List.nil_append]
      | none =>
        have hrec := ih f (by omega) rest (by omega)
        cases t <;> simp only [symKind, reduceCtorEq] at hk <;>
          simp_all [tbcGo, symKind, brkts, List.filterMap_cons, isStartCode, isEndCode,
            isStartTok, isEndTok]

theorem brkts_scanCodes (ts : List Tok) :
    brkts isStartCode isEndCode (scanCodes ts) = brkts isStartTok isEndTok ts :=
  brkts_tbcGo ts.length ts le_rfl

theorem firstExtraEnd_scanCodes_isNone (ts : List Tok) :
    (firstExtraEnd isStartCode isEndCode (scanCodes ts)).isNone =
      (firstExtraEnd isStartTok isEndTok ts).isNone := by
  unfold firstExtraEnd
  rw [firstExtraEndGo_brkts isStartCode isEndCode (scanCodes ts) 0 0 0,
    brkts_scanCodes, ← firstExtraEndGo_brkts isStartTok isEndTok ts 0 0 0]

theorem dyckOk_scanCodes (ts : List Tok) :
    dyckOk isStartCode isEndCode (scanCodes ts) = dyckOk isStartTok isEndTok ts := by
  unfold dyckOk
  rw [dyckOkGo_brkts isStartCode isEndCode (scanCodes ts) 0,
    brkts_scanCodes, ← dyckOkGo_brkts isStartTok isEndTok ts 0]

/-- Compilation fails (the Rust code panics before any execution) on every
token list whose brackets are not fully paired, whichever side is unmatched. -/
theorem to_byte_codes_unbalanced {ts : List Tok}
    (h : dyckOk isStartTok isEndTok ts = false) :
    to_byte_codes ts = none := by
  cases hfe : firstExtraEnd isStartTok isEndTok ts with
  | some i =>
    have hC : (firstExtraEnd isStartCode isEndCode (scanCodes ts)).isSome = true := by
      have h1 := firstExtraEnd_scanCodes_isNone ts
      rw [hfe] at h1
      simp only [Option.isNone_some] at h1
      cases hfc : firstExtraEnd isStartCode isEndCode (scanCodes ts) with
      | some _ => rfl
      | none => rw [hfc] at h1; simp at h1
    have hpb : populate_byte_codes_loop_boundaries isStartCode isEndCode (scanCodes ts)
        = none := by
      unfold populate_byte_codes_loop_boundaries
      exact (popBoundsGo_none_iff isStartCode isEndCode (scanCodes ts) 0 [] [] []).mpr hC
    simp only [to_byte_codes, hpb]
  | none =>
    have hCn : firstExtraEnd isStartCode isEndCode (scanCodes ts) = none := by
      have h1 := firstExtraEnd_scanCodes_isNone ts
      rw [hfe] at h1
      simp only [Option.isNone_none] at h1
      exact Option.eq_none_iff_forall_not_mem.mpr fun a ha => by
        rw [ha] at h1; simp at h1
    have hdC : dyckOk isStartCode isEndCode (scanCodes ts) = false := by
      rw [dyckOk_scanCodes]; exact h
    have hstC : scanStackGo isStartCode isEndCode (scanCodes ts) 0 [] ≠ [] := by
      intro hempty
      have h1 := (dyckOkGo_iff isStartCode isEndCode (scanCodes ts) 0 []).mpr ⟨hCn, hempty⟩
      have h2 : dyckOk isStartCode isEndCode (scanCodes ts) = true := h1
      rw [hdC] at h2
      exact Bool.false_ne_true h2
    cases hpb : populate_byte_codes_loop_boundaries isStartCode isEndCode (scanCodes ts) with
    | none =>
      exfalso
      have h1 := (popBoundsGo_none_iff isStartCode isEndCode (scanCodes ts) 0 [] [] []).mp hpb
      have h2 : (firstExtraEnd isStartCode isEndCode (scanCodes ts)).isSome = true := h1
      rw [hCn] at h2
      simp at h2
    | some SE =>
      obtain ⟨S, E⟩ := SE
      obtain ⟨j, hj⟩ :=
        List.exists_mem_of_ne_nil (scanStackGo isStartCode isEndCode (scanCodes ts) 0 []) hstC
      have hlookup : List.lookup j S = none :=
        popBounds_leftover_lookup isStartCode isEndCode (scanCodes ts) 0 [] [] [] S E
          hpb (by simp) (by simp) (by simp) (by simp) j hj
      rcases scanStack_mem isStartCode isEndCode (scanCodes ts) 0 [] j hj with hmem | hpos
      · simp at hmem
      · obtain ⟨k, hklt, hks, rfl⟩ := hpos
        have hkind : ((scanCodes ts).get ⟨k, hklt⟩).kind = ByteCodeKind.loopStart := by
          have : isStartCode ((scanCodes ts).get ⟨k, hklt⟩) = true := by simpa using hks
          simpa [isStartCode] using this
        have hpatch : patchGo S E 0 (scanCodes ts) = none := by
          refine patchGo_none S E (scanCodes ts) 0 k hklt hkind ?_
          simpa using hlookup
        simp only [to_byte_codes, hpb, hpatch]

/-- Direct mode is fail-fast for unmatched end brackets: the recomputation of
the loop tables panics before the execution loop starts, with the machine
still in its reset state. -/
theorem eval_source_file_extra_end {ts : List Tok} {i : Nat}
    (h : firstExtraEnd isStartTok isEndTok ts = some i) (fuel : Nat) (m : Machine) :
    eval_source_file fuel ts m = .crash (reset m) := by
  have hpb : populate_byte_codes_loop_boundaries isStartTok isEndTok ts = none := by
    unfold populate_byte_codes_loop_boundaries
    refine (popBoundsGo_none_iff isStartTok isEndTok ts 0 [] [] []).mpr ?_
    have h2 : (firstExtraEnd isStartTok isEndTok ts).isSome = true := by rw [h]; rfl
    exact h2
  simp only [eval_source_file, hpb]

/-! ### Characterization of the Result-returning loop matcher (utility.rs) -/

/-- The matcher reports an unmatched-end failure exactly at the index found by
the left-to-right depth scan: the first end item arriving at depth zero. -/
theorem plbGo_right_iff (isS isE : α → Bool) :
    ∀ (l : List α) (idx : Nat) (stack : List Nat) (s2e e2s : List (Nat × Nat)) (i : Nat),
      plbGo isS isE l idx stack s2e e2s = .error (.right i) ↔
        firstExtraEndGo isS isE l idx stack.length = some i := by
  intro l
  induction l with
  | nil =>
    intro idx stack s2e e2s i
    cases stack <;> simp [plbGo, firstExtraEndGo]
  | cons c cs ih =>
    intro idx stack s2e e2s i
    by_cases hS : isS c = true
    · simp only [plbGo, firstExtraEndGo, hS, if_true]
      exact ih (idx + 1) (idx :: stack) s2e e2s i
    · by_cases hE : isE c = true
      · simp only [plbGo, firstExtraEndGo, hS, hE, if_true, Bool.false_eq_true, if_false]
        cases stack with
        | nil => simp
        | cons s t =>
          simp only [List.length_cons]
          exact ih (idx + 1) t _ _ i
      · simp only [plbGo, firstExtraEndGo, hS, hE, Bool.false_eq_true, if_false]
        exact ih (idx + 1) stack s2e e2s i

/-- When no unmatched end exists and the scan leaves pending starts, the
matcher fails only after the full scan, with the top of the stack. -/
theorem plbGo_left_of_stack (isS isE : α → Bool) :
    ∀ (l : List α) (idx : Nat) (stack : List Nat) (s2e e2s : List (Nat × Nat))
      (j : Nat) (tl : List Nat),
      firstExtraEndGo isS isE l idx stack.length = none →
      scanStackGo isS isE l idx stack = j :: tl →
      plbGo isS isE l idx stack s2e e2s = .error (.left j) := by
  intro l
  induction l with
  | nil =>
    intro idx stack s2e e2s j tl _ hst
    simp only [scanStackGo] at hst
    subst hst
    rfl
  | cons c cs ih =>
    intro idx stack s2e e2s j tl hfe hst
    by_cases hS : isS c = true
    · simp only [firstExtraEndGo, hS, if_true] at hfe
      simp only [scanStackGo, hS, if_true] at hst
      simp only [plbGo, hS, if_true]
      exact ih (idx + 1) (idx :: stack) s2e e2s j tl hfe hst
    · by_cases hE : isE c = true
      · simp only [firstExtraEndGo, hS, hE, if_true, Bool.false_eq_true, if_false] at hfe
        simp only [scanStackGo, hS, hE, if_true, Bool.false_eq_true, if_false] at hst
        simp only [plbGo, hS, hE, if_true, Bool.false_eq_true, if_false]
        cases stack with
        | nil => simp at hfe
        | cons s t =>
          simp only [List.length_cons] at hfe
          simp only [List.tail_cons] at hst
          exact ih (idx + 1) t _ _ j tl hfe hst
      · simp only [firstExtraEndGo, hS, hE, Bool.false_eq_true, if_false] at hfe
        simp only [scanStackGo, hS, hE, Bool.false_eq_true, if_false] at hst
        simp only [plbGo, hS, hE, Bool.false_eq_true, if_false]
        exact ih (idx + 1) stack s2e e2s j tl hfe hst

/-- The pending-start stack stays strictly decreasing (its head is the most
recently pushed, hence largest, pending start index). -/
theorem scanStack_sorted (isS isE : α → Bool) :
    ∀ (l : List α) (idx : Nat) (stack : List Nat),
      stack.Pairwise (· > ·) → (∀ x ∈ stack, x < idx) →
      (scanStackGo isS isE l idx stack).Pairwise (· > ·) := by
  intro l
  induction l with
  | nil => intro idx stack hpw _; exact hpw
  | cons c cs ih =>
    intro idx stack hpw hbnd
    by_cases hS : isS c = true
    · simp only [scanStackGo, hS, if_true]
      refine ih (idx + 1) (idx :: stack) (List.pairwise_cons.mpr ⟨fun x hx => hbnd x hx, hpw⟩) ?_
      intro x hx
      rcases List.mem_cons.mp hx with rfl | hx'
      · omega
      · have := hbnd x hx'; omega
    · by_cases hE : isE c = true
      · simp only [scanStackGo, hS, hE, if_true, Bool.false_eq_true, if_false]
        cases stack with
        | nil =>
          exact ih (idx + 1) [] (by simp) (by simp)
        | cons s t =>
          have hst := List.pairwise_cons.mp hpw
          refine ih (idx + 1) t hst.2 ?_
          intro x hx
          have := hbnd x (List.mem_cons_of_mem s hx); omega
      · simp only [scanStackGo, hS, hE, Bool.false_eq_true, if_false]
        refine ih (idx + 1) stack hpw ?_
        intro x hx
        have := hbnd x hx; omega

/-! ### Lexer lemmas -/

theorem lexGo_length : ∀ (pieces : List (List Nat)) (ofs : Nat),
    (lexGo ofs pieces).length = pieces.length := by
  intro pieces
  induction pieces with
  | nil => intro ofs; rfl
  | cons p ps ih => intro ofs; simp [lexGo, ih]

theorem lexGo_contiguous : ∀ (pieces : List (List Nat)) (ofs : Nat),
    contiguousFrom ofs (lexGo ofs pieces) := by
  intro pieces
  induction pieces with
  | nil => intro ofs; trivial
  | cons p ps ih => intro ofs; exact ⟨rfl, ih (ofs + p.length)⟩

/-- The token text extracted at each cumulative offset is exactly the
corresponding grapheme cluster. -/
theorem lexGo_get_token : ∀ (pieces : List (List Nat)) (pre : List Nat),
    (lexGo pre.length pieces).map (get_token (pre ++ pieces.flatten)) = pieces := by
  intro pieces
  induction pieces with
  | nil => intro pre; rfl
  | cons p ps ih =>
    intro pre
    simp only [lexGo, List.map_cons, List.flatten_cons]
    refine List.cons_eq_cons.mpr ⟨?_, ?_⟩
    · show ((pre ++ (p ++ ps.flatten)).drop pre.length).take p.length = p
      rw [List.drop_left pre (p ++ ps.flatten)]
      exact List.take_left p ps.flatten
    · have h := ih (pre ++ p)
      rw [List.length_append] at h
      rw [List.append_assoc] at h
      exact h

/-! ### Reset lemmas -/

theorem reset_eq {m1 m2 : Machine} (hlen : m1.cells.length = m2.cells.length)
    (hinp : m1.inp = m2.inp) : reset m1 = reset m2 := by
  obtain ⟨c1, d1, i1, n1, o1⟩ := m1
  obtain ⟨c2, d2, i2, n2, o2⟩ := m2
  simp only [reset]
  simp only at hlen hinp
  rw [List.map_const', List.map_const', hlen, hinp]

/-! ### Claim theorems -/

/-- C1: the claim asserts that direct mode and compiled mode produce
byte-identical output for every bracket-paired source and input stream. The
code refutes it: the compiler coalesces a run of read symbols into one read
instruction with operand greater than one, while Machine::read consumes
exactly one input character regardless of the operand. On the bracket-free
source ",,." with input "ab" (codes 97, 98), direct mode consumes both
characters and outputs 98, while compiled mode consumes one character and
outputs 97. -/
theorem C1_read_coalescing_divergence :
    res_out (eval_source_file 10 [.comma, .comma, .dot] (mkMachine 1 [97, 98])) = [98] ∧
    (to_byte_codes [.comma, .comma, .dot]).map
      (fun bc => res_out (eval_byte_codes 10 bc (mkMachine 1 [97, 98]))) = some [97] ∧
    dyckOk isStartTok isEndTok [.comma, .comma, .dot] = true ∧
    (to_byte_codes [.comma, .comma, .dot]).map
        (fun bc => res_out (eval_byte_codes 10 bc (mkMachine 1 [97, 98]))) ≠
      some (res_out (eval_source_file 10 [.comma, .comma, .dot] (mkMachine 1 [97, 98]))) := by
  decide

/-- C2 (counterexample): on the source "++", whose maximal run of two plus
symbols extends to the end of the source, the compiler does NOT emit one
instruction with operand 2; it emits two instructions with operand 1. -/
theorem C2_counterexample_run_at_source_end :
    to_byte_codes [.plus, .plus] = some [⟨.incData, 1⟩, ⟨.incData, 1⟩] ∧
    to_byte_codes [.plus, .plus] ≠ some [⟨.incData, 2⟩] := by
  decide

/-- C2 (amended): for every maximal run of k identical non-jump symbols that
is followed by a further token, the compiler scan emits exactly one
instruction of the corresponding kind whose operand equals k; a maximal run
extending to the end of the source is instead emitted as k instructions with
operand 1 (the unwrap_or(1) fallback). -/
theorem C2_coalescing_amended :
    (∀ (s t : Tok) (k : ByteCodeKind) (rest : List Tok) (n : Nat),
      symKind s = some k → t ≠ s → 1 ≤ n →
      scanCodes (List.replicate n s ++ t :: rest) = ⟨k, n⟩ :: scanCodes (t :: rest)) ∧
    (∀ (s : Tok) (k : ByteCodeKind) (n : Nat),
      symKind s = some k →
      scanCodes (List.replicate n s) = List.replicate n ⟨k, 1⟩) :=
  ⟨fun _ _ _ rest n hk hts hn => scanCodes_run hk hts rest n hn,
    fun _ _ n hk => scanCodes_run_at_end hk n⟩

theorem C2_coalescing_amended_witness :
    scanCodes [Tok.plus, Tok.plus, Tok.dot] =
      [⟨ByteCodeKind.incData, 2⟩, ⟨ByteCodeKind.write, 1⟩] ∧
    scanCodes [Tok.plus, Tok.plus] =
      [⟨ByteCodeKind.incData, 1⟩, ⟨ByteCodeKind.incData, 1⟩] := by
  refine ⟨?_, ?_⟩
  · have h := C2_coalescing_amended.1 Tok.plus Tok.dot ByteCodeKind.incData [] 2
      (by decide) (by decide) (by decide)
    have h3 : scanCodes [Tok.dot] = [⟨ByteCodeKind.write, 1⟩] := by decide
    rw [h3] at h
    exact h
  · exact C2_coalescing_amended.2 Tok.plus ByteCodeKind.incData 2 (by decide)

/-- C3: the claim asserts that pointer moves wrap modulo the tape length, so
that on a 10-cell tape with the data pointer at 5, move-backward(6) leaves
the pointer at 9 and move-forward(7) would leave it at 2. The code instead
wraps at 2 ^ 64 (usize wrapping_sub / wrapping_add): move-backward(6) leaves
the pointer at 2 ^ 64 - 1 and move-forward(7) at 12. -/
theorem C3_pointer_wraps_at_usize_not_tape_length :
    (dec_ptr 6 ⟨List.replicate 10 0, 5, 0, [], []⟩).data_ptr = 2 ^ 64 - 1 ∧
    (dec_ptr 6 ⟨List.replicate 10 0, 5, 0, [], []⟩).data_ptr ≠ 9 ∧
    (inc_ptr 7 ⟨List.replicate 10 0, 5, 0, [], []⟩).data_ptr = 12 ∧
    (inc_ptr 7 ⟨List.replicate 10 0, 5, 0, [], []⟩).data_ptr ≠ 2 := by
  decide

/-- C4: the claim asserts that execution of a bracket-paired program never
fails at run time and that no tape-bounds failure occurs. The code refutes
it: on a 10-cell tape (data pointer starting at 5), the bracket-free program
">>>>>+" moves the pointer to 10 and the add instruction then panics on the
out-of-range cell access — in both modes. -/
theorem C4_tape_bounds_crash :
    dyckOk isStartTok isEndTok [.gt, .gt, .gt, .gt, .gt, .plus] = true ∧
    is_crash (eval_source_file 20 [.gt, .gt, .gt, .gt, .gt, .plus] (mkMachine 10 [])) = true ∧
    (to_byte_codes [.gt, .gt, .gt, .gt, .gt, .plus]).map
      (fun bc => is_crash (eval_byte_codes 20 bc (mkMachine 10 []))) = some true := by
  decide

/-- C5 (counterexample): on the source ".[" (an unmatched start bracket),
compiled mode fails during compilation with no instruction execution, but
direct mode is NOT fail-fast: it executes the write instruction (the output
buffer holds one byte) and only then panics at the unmatched start, mid-run,
inconsistently with compiled mode. -/
theorem C5_counterexample_direct_mode_executes :
    to_byte_codes [.dot, .lbrack] = none ∧
    eval_source_file 10 [.dot, .lbrack] (mkMachine 1 []) = .crash ⟨[0], 0, 1, [], [0]⟩ ∧
    res_out (eval_source_file 10 [.dot, .lbrack] (mkMachine 1 [])) ≠ [] := by
  decide

/-- C5 (amended): for every source whose brackets are not fully paired,
compiled mode detects the failure at compile time and performs no instruction
execution; direct mode is fail-fast only for unmatched END brackets, where the
loop-table recomputation panics before the execution loop starts, with the
machine still in its freshly reset state. (For sources whose only unmatched
brackets are start brackets, direct mode may execute instructions and fail
mid-run, as the counterexample shows.) -/
theorem C5_unmatched_bracket_handling_amended :
    (∀ ts : List Tok, dyckOk isStartTok isEndTok ts = false → to_byte_codes ts = none) ∧
    (∀ (ts : List Tok) (i : Nat), firstExtraEnd isStartTok isEndTok ts = some i →
      ∀ (fuel : Nat) (m : Machine), eval_source_file fuel ts m = .crash (reset m)) :=
  ⟨fun _ h => to_byte_codes_unbalanced h,
    fun _ _ h fuel m => eval_source_file_extra_end h fuel m⟩

theorem C5_unmatched_bracket_handling_amended_witness :
    to_byte_codes [Tok.dot, Tok.lbrack] = none ∧
    eval_source_file 5 [Tok.rbrack] (mkMachine 1 []) = .crash (reset (mkMachine 1 [])) :=
  ⟨C5_unmatched_bracket_handling_amended.1 [Tok.dot, Tok.lbrack] (by decide),
    C5_unmatched_bracket_handling_amended.2 [Tok.rbrack] 0 (by decide) 5 (mkMachine 1 [])⟩

/-- C6: the loop matcher fails on an extra end item immediately at the first
unmatched end index found scanning left to right (characterized by the
depth-counter scan firstExtraEnd), and fails on extra start items only after
the full scan, reporting the top of the pending-start stack — the most
recently seen unmatched start, which is the largest pending index, not the
earliest; in particular the four worked examples hold. -/
theorem C6_matcher_failure_asymmetry :
    (∀ {α : Type} (isS isE : α → Bool) (l : List α) (i : Nat),
      populate_loop_boundaries isS isE l = .error (.right i) ↔
        firstExtraEnd isS isE l = some i) ∧
    (∀ {α : Type} (isS isE : α → Bool) (l : List α) (j : Nat) (tl : List Nat),
      firstExtraEnd isS isE l = none → scanStack isS isE l = j :: tl →
      populate_loop_boundaries isS isE l = .error (.left j) ∧ ∀ k ∈ j :: tl, k ≤ j) ∧
    populate_loop_boundaries isStartTok isEndTok
      [.lbrack, .lbrack, .rbrack] = .error (.left 0) ∧
    populate_loop_boundaries isStartTok isEndTok
      [.lbrack, .rbrack, .lbrack, .lbrack, .lbrack, .rbrack, .rbrack, .lbrack, .rbrack] =
        .error (.left 2) ∧
    populate_loop_boundaries isStartTok isEndTok [.rbrack] = .error (.right 0) ∧
    populate_loop_boundaries isStartTok isEndTok
      [.lbrack, .rbrack, .lbrack, .rbrack, .lbrack, .rbrack, .rbrack, .lbrack, .rbrack] =
        .error (.right 6) := by
  refine ⟨?_, ?_, rfl, rfl, rfl, rfl⟩
  · intro α isS isE l i
    exact plbGo_right_iff isS isE l 0 [] [] [] i
  · intro α isS isE l j tl hfe hst
    refine ⟨plbGo_left_of_stack isS isE l 0 [] [] [] j tl hfe hst, ?_⟩
    have hpw := scanStack_sorted isS isE l 0 [] (by simp) (by simp)
    have hst2 : scanStackGo isS isE l 0 [] = j :: tl := hst
    rw [hst2] at hpw
    intro k hk
    rcases List.mem_cons.mp hk with rfl | hk'
    · exact Nat.le_refl k
    · have := (List.pairwise_cons.mp hpw).1 k hk'
      omega

theorem C6_matcher_failure_asymmetry_witness :
    (populate_loop_boundaries isStartTok isEndTok [Tok.rbrack] = .error (.right 0) ↔
      firstExtraEnd isStartTok isEndTok [Tok.rbrack] = some 0) ∧
    (populate_loop_boundaries isStartTok isEndTok [Tok.lbrack, Tok.lbrack] =
        .error (.left 1) ∧
      ∀ k ∈ [1, 0], k ≤ 1) :=
  ⟨C6_matcher_failure_asymmetry.1 isStartTok isEndTok [Tok.rbrack] 0,
    C6_matcher_failure_asymmetry.2.1 isStartTok isEndTok [Tok.lbrack, Tok.lbrack] 1 [0]
      (by decide) rfl⟩

/-- C7: for a machine whose data pointer is on the tape, jump-if-zero with
target t sets the instruction pointer to t + 1 when the current cell is zero
and otherwise advances it by one; jump-if-nonzero with target t sets it to t
when the current cell is nonzero and otherwise advances it by one; and for
the program "+[[]]" the loop matcher yields start-to-end pairs (1,4), (2,3)
and end-to-start pairs (4,1), (3,2). -/
theorem C7_jump_semantics_and_match_table :
    (∀ (m : Machine) (t : Nat) (h : m.data_ptr < m.cells.length),
      loop_start_jump_if_data_zero t m =
        .ok { m with instr_ptr := if m.cells[m.data_ptr] = 0 then t + 1
                                  else m.instr_ptr + 1 } ∧
      loop_end_jump_if_data_not_zero t m =
        .ok { m with instr_ptr := if m.cells[m.data_ptr] ≠ 0 then t
                                  else m.instr_ptr + 1 }) ∧
    populate_loop_boundaries isStartTok isEndTok
      [.plus, .lbrack, .lbrack, .rbrack, .rbrack] =
        .ok ([(1, 4), (2, 3)], [(4, 1), (3, 2)]) := by
  refine ⟨fun m t h => ⟨?_, ?_⟩, rfl⟩
  · simp only [loop_start_jump_if_data_zero, List.getElem?_eq_getElem h]
  · simp only [loop_end_jump_if_data_not_zero, List.getElem?_eq_getElem h]

theorem C7_jump_semantics_and_match_table_witness :
    loop_start_jump_if_data_zero 4 ⟨[0], 0, 1, [], []⟩ = .ok ⟨[0], 0, 5, [], []⟩ ∧
    loop_end_jump_if_data_not_zero 1 ⟨[7], 0, 4, [], []⟩ = .ok ⟨[7], 0, 1, [], []⟩ :=
  ⟨((C7_jump_semantics_and_match_table.1 ⟨[0], 0, 1, [], []⟩ 4 (by decide)).1).trans
      (by decide),
    ((C7_jump_semantics_and_match_table.1 ⟨[7], 0, 4, [], []⟩ 1 (by decide)).2).trans
      (by decide)⟩

/-- C8: a read instruction consumes exactly one character from the input
stream regardless of its repeat operand, storing the character's code (as a
byte) in the current cell, and compiled-mode coalescing does produce read
instructions with operand greater than one (",,." compiles to read(2),
write(1)). -/
theorem C8_read_consumes_exactly_one :
    (∀ (n : Nat) (m : Machine) (c : Nat) (rest : List Nat),
      m.inp = c :: rest → m.data_ptr < m.cells.length →
      read n m = .ok { m with
        cells := m.cells.set m.data_ptr (c % 256)
        inp := rest
        instr_ptr := m.instr_ptr + 1 }) ∧
    to_byte_codes [.comma, .comma, .dot] = some [⟨.read, 2⟩, ⟨.write, 1⟩] := by
  refine ⟨?_, by decide⟩
  intro n m c rest h1 h2
  obtain ⟨cells, dp, ip, inp, outb⟩ := m
  simp only at h1 h2
  subst h1
  simp [read, h2]

theorem C8_read_consumes_exactly_one_witness :
    read 2 ⟨[0], 0, 0, [97, 98], []⟩ = .ok ⟨[97], 0, 1, [98], []⟩ :=
  (C8_read_consumes_exactly_one.1 2 ⟨[0], 0, 0, [97, 98], []⟩ 97 [98] rfl
    (by decide)).trans (by decide)

/-- C9: the lexer is total and, over any grapheme segmentation of the raw
content (modelled as the list of cluster byte strings whose concatenation is
the raw content, as the unicode-segmentation crate guarantees), it produces
one token per cluster, with contiguous byte offsets starting at zero — no
gaps, no overlaps — such that each token's extracted text is exactly its
cluster and concatenating all token texts reconstructs the raw content. -/
theorem C9_lexer_total_covering_roundtrip :
    ∀ pieces : List (List Nat),
      (lex_pieces pieces).length = pieces.length ∧
      contiguousFrom 0 (lex_pieces pieces) ∧
      (lex_pieces pieces).map (get_token pieces.flatten) = pieces ∧
      ((lex_pieces pieces).map (get_token pieces.flatten)).flatten = pieces.flatten := by
  intro pieces
  have hmap : (lex_pieces pieces).map (get_token pieces.flatten) = pieces := by
    have h := lexGo_get_token pieces []
    simpa [lex_pieces] using h
  exact ⟨lexGo_length pieces 0, lexGo_contiguous pieces 0, hmap, by rw [hmap]⟩

/-- C10: both evaluators reset the machine first (cells zeroed, data pointer
to half the tape length, instruction pointer zero, output flushed), so two
machines with the same tape length and the same input stream produce
identical run results — output and final machine state — for the same
program, regardless of any prior cell, pointer, or instruction-pointer
state, with no explicit reset call in between. -/
theorem C10_reset_first_run_determinism :
    (∀ m : Machine,
      (reset m).cells = List.replicate m.cells.length 0 ∧
      (reset m).data_ptr = m.cells.length / 2 ∧
      (reset m).instr_ptr = 0 ∧
      (reset m).out = []) ∧
    (∀ (m1 m2 : Machine) (fuel : Nat) (ts : List Tok) (codes : List ByteCode),
      m1.cells.length = m2.cells.length → m1.inp = m2.inp →
      eval_source_file fuel ts m1 = eval_source_file fuel ts m2 ∧
      eval_byte_codes fuel codes m1 = eval_byte_codes fuel codes m2) := by
  constructor
  · intro m
    refine ⟨?_, rfl, rfl, rfl⟩
    simp [reset, List.map_const']
  · intro m1 m2 fuel ts codes hlen hinp
    have hres := reset_eq hlen hinp
    constructor
    · simp only [eval_source_file]
      rw [hres]
    · simp only [eval_byte_codes]
      rw [hres]

theorem C10_reset_first_run_determinism_witness :
    eval_source_file 5 [Tok.plus] ⟨[9, 9], 1, 7, [3], [5]⟩ =
      eval_source_file 5 [Tok.plus] ⟨[0, 4], 0, 0, [3], []⟩ ∧
    eval_byte_codes 5 [⟨ByteCodeKind.incData, 1⟩] ⟨[9, 9], 1, 7, [3], [5]⟩ =
      eval_byte_codes 5 [⟨ByteCodeKind.incData, 1⟩] ⟨[0, 4], 0, 0, [3], []⟩ :=
  C10_reset_first_run_determinism.2 ⟨[9, 9], 1, 7, [3], [5]⟩ ⟨[0, 4], 0, 0, [3], []⟩
    5 [Tok.plus] [⟨ByteCodeKind.incData, 1⟩] (by decide) (by decide)

end BF
